import Mathlib

/-
  Verification of the TermChess training core:
  * src/training/board_encoder.py  (encode_board)
  * src/training/model.py          (ResidualBlock, ChessNet)

  The board encoder is embedded over ℚ (all values written by the code are
  exactly 0.0 or 1.0, so the rational model is exact for float32).
  The network is embedded over ℝ, the standard idealisation of the float
  computation; batch normalisation carries both training-mode (batch
  statistics) and inference-mode (running statistics) semantics, as in
  torch.nn.BatchNorm2d.
-/

namespace TermChess

/-! ## Board encoder (src/training/board_encoder.py) -/

/-- Model of a python-chess piece: `color` (`true` = `chess.WHITE`) and
`pieceType`, holding `piece.piece_type - 1`, i.e. 0 = pawn .. 5 = king. -/
structure Piece where
  color : Bool
  pieceType : Fin 6
deriving DecidableEq

/-- Read-only snapshot of a `chess.Board`, exposing exactly the queries
`encode_board` performs: `piece_at` for each of the 64 squares, `turn`,
the four castling-rights predicates, and `ep_square`. -/
structure Board where
  pieceAt : Fin 64 → Option Piece
  turn : Bool
  castleWK : Bool
  castleWQ : Bool
  castleBK : Bool
  castleBQ : Bool
  epSquare : Option (Fin 64)

/-- A cell-indexed view of the numpy array `encoding` of shape [18, 8, 8]:
channel, rank, file. -/
def Encoding : Type := Fin 18 → Fin 8 → Fin 8 → ℚ

/-- Mutation `encoding[c, r, f] = v` of a single cell. -/
def setCell (e : Encoding) (c : Fin 18) (r f : Fin 8) (v : ℚ) : Encoding :=
  fun c1 r1 f1 => if c1 = c ∧ r1 = r ∧ f1 = f then v else e c1 r1 f1

/-- Mutation `encoding[c, :, :] = v` of a whole plane. -/
def setPlane (e : Encoding) (c : Fin 18) (v : ℚ) : Encoding :=
  fun c1 r1 f1 => if c1 = c then v else e c1 r1 f1

/-- Mutation `encoding[c, :, f] = v` of a whole column. -/
def setColumn (e : Encoding) (c : Fin 18) (f : Fin 8) (v : ℚ) : Encoding :=
  fun c1 r1 f1 => if c1 = c ∧ f1 = f then v else e c1 r1 f1

/-- `chess.square_rank`: square index 0..63 to rank 0..7 (square // 8). -/
def squareRank (sq : Fin 64) : Fin 8 :=
  ⟨sq.val / 8, by have := sq.isLt; omega⟩

/-- `chess.square_file`: square index 0..63 to file 0..7 (square % 8). -/
def squareFile (sq : Fin 64) : Fin 8 :=
  ⟨sq.val % 8, by have := sq.isLt; omega⟩

/-- The square with a given rank and file (`chess.square(file, rank)`),
i.e. rank * 8 + file. -/
def squareAt (r f : Fin 8) : Fin 64 :=
  ⟨r.val * 8 + f.val, by have := r.isLt; have := f.isLt; omega⟩

/-- Channel for a piece: `WHITE_PIECE_OFFSET (= 0) + piece_index` for white,
`BLACK_PIECE_OFFSET (= 6) + piece_index` for black. -/
def pieceChannel (p : Piece) : Fin 18 :=
  if p.color then ⟨p.pieceType.val, by have := p.pieceType.isLt; omega⟩
  else ⟨6 + p.pieceType.val, by have := p.pieceType.isLt; omega⟩

/-- `chess.SQUARES`: the list of all 64 squares, iterated once in order. -/
def boardSquares : List (Fin 64) := List.finRange 64

/-- One iteration of the piece-placement loop: look up `board.piece_at(square)`
and, if occupied, set the one cell `encoding[channel, rank, file] = 1.0`. -/
def encodePieceAt (b : Board) (e : Encoding) (sq : Fin 64) : Encoding :=
  match b.pieceAt sq with
  | none => e
  | some p => setCell e (pieceChannel p) (squareRank sq) (squareFile sq) 1

/-- Channels 0-11 of `encode_board`: the piece-placement loop over
`chess.SQUARES`, starting from the all-zero array. -/
def piecePlanes (b : Board) : Encoding :=
  boardSquares.foldl (encodePieceAt b) (fun _ _ _ => 0)

/-- Channel 12 of `encode_board`: `encoding[12, :, :] = 1.0` iff white to move. -/
def withTurn (b : Board) (e : Encoding) : Encoding :=
  if b.turn then setPlane e 12 1 else e

/-- Channels 13-16 of `encode_board`: one whole plane per castling right. -/
def withCastling (b : Board) (e : Encoding) : Encoding :=
  let e1 := if b.castleWK then setPlane e 13 1 else e
  let e2 := if b.castleWQ then setPlane e1 14 1 else e1
  let e3 := if b.castleBK then setPlane e2 15 1 else e2
  if b.castleBQ then setPlane e3 16 1 else e3

/-- Channel 17 of `encode_board`: if `board.ep_square is not None`, mark the
whole column of its file. -/
def withEp (b : Board) (e : Encoding) : Encoding :=
  match b.epSquare with
  | some sq => setColumn e 17 (squareFile sq) 1
  | none => e

/-- Embedding of `encode_board`: the stages are applied in the order of the
source (pieces, then side to move, then castling rights, then en passant). -/
def encode_board (b : Board) : Encoding :=
  withEp b (withCastling b (withTurn b (piecePlanes b)))

/-! ### Pointwise characterisation of the encoder -/

/-! ## Evaluation network (src/training/model.py), embedded over ℝ -/

noncomputable section

/-- `F.relu`: elementwise `max(x, 0)`. -/
def relu (x : ℝ) : ℝ := max x 0

/-- A batched activation of shape [B, C, 8, 8]; every layer of `ChessNet`
works at spatial size 8 x 8. -/
def Batch (B C : ℕ) : Type := Fin B → Fin C → Fin 8 → Fin 8 → ℝ

/-- Zero-padded lookup into one 8 x 8 plane (`padding=1` semantics). -/
def padGet (x : Fin 8 → Fin 8 → ℝ) (i j : ℤ) : ℝ :=
  if h : 0 ≤ i ∧ i < 8 ∧ 0 ≤ j ∧ j < 8 then
    x ⟨i.toNat, by omega⟩ ⟨j.toNat, by omega⟩
  else 0

/-- `nn.Conv2d(inC, outC, kernel_size=3, padding=1, bias=False)` applied to
one batch element: a spatially-preserving cross-correlation. -/
def conv3x3 {inC outC : ℕ} (w : Fin outC → Fin inC → Fin 3 → Fin 3 → ℝ)
    (x : Fin inC → Fin 8 → Fin 8 → ℝ) : Fin outC → Fin 8 → Fin 8 → ℝ :=
  fun o i j => ∑ c : Fin inC, ∑ ki : Fin 3, ∑ kj : Fin 3,
    w o c ki kj * padGet (x c) ((i.val : ℤ) + ki.val - 1) ((j.val : ℤ) + kj.val - 1)

/-- `nn.Conv2d(inC, outC, kernel_size=1, bias=False)` applied to one batch
element. -/
def conv1x1 {inC outC : ℕ} (w : Fin outC → Fin inC → ℝ)
    (x : Fin inC → Fin 8 → Fin 8 → ℝ) : Fin outC → Fin 8 → Fin 8 → ℝ :=
  fun o i j => ∑ c : Fin inC, w o c * x c i j

/-- Parameters and buffers of an `nn.BatchNorm2d(C)` module: the learnable
affine pair (`weight` = gamma, `bias` = beta) and the running statistics
used in inference mode. -/
structure BatchNormParams (C : ℕ) where
  weight : Fin C → ℝ
  bias : Fin C → ℝ
  running_mean : Fin C → ℝ
  running_var : Fin C → ℝ

/-- Default `eps` of `nn.BatchNorm2d`. -/
def bnEps : ℝ := 1e-5

/-- Per-channel mean over batch and spatial positions (training mode). -/
def batchMean {B C : ℕ} (x : Batch B C) (c : Fin C) : ℝ :=
  (∑ b : Fin B, ∑ i : Fin 8, ∑ j : Fin 8, x b c i j) / (B * 64)

/-- Per-channel biased variance over batch and spatial positions. -/
def batchVar {B C : ℕ} (x : Batch B C) (c : Fin C) : ℝ :=
  (∑ b : Fin B, ∑ i : Fin 8, ∑ j : Fin 8, (x b c i j - batchMean x c) ^ 2) / (B * 64)

/-- `nn.BatchNorm2d`: in training mode, normalise with the current batch
statistics; in inference mode, with the frozen running estimates. -/
def batchNorm2d {B C : ℕ} (training : Bool) (p : BatchNormParams C)
    (x : Batch B C) : Batch B C :=
  if training then
    fun b c i j =>
      p.weight c * ((x b c i j - batchMean x c) / Real.sqrt (batchVar x c + bnEps))
        + p.bias c
  else
    fun b c i j =>
      p.weight c * ((x b c i j - p.running_mean c) / Real.sqrt (p.running_var c + bnEps))
        + p.bias c

/-- Parameters of one `ResidualBlock(num_filters = F)`. -/
structure ResidualBlockParams (F : ℕ) where
  conv1 : Fin F → Fin F → Fin 3 → Fin 3 → ℝ
  bn1 : BatchNormParams F
  conv2 : Fin F → Fin F → Fin 3 → Fin 3 → ℝ
  bn2 : BatchNormParams F

/-- `ResidualBlock.forward`: conv1 -> bn1 -> relu -> conv2 -> bn2 ->
add skip connection -> relu. -/
def residualBlockForward {F B : ℕ} (blk : ResidualBlockParams F)
    (training : Bool) (x : Batch B F) : Batch B F :=
  let out1 := fun b => conv3x3 blk.conv1 (x b)
  let out2 := batchNorm2d training blk.bn1 out1
  let out3 : Batch B F := fun b c i j => relu (out2 b c i j)
  let out4 := fun b => conv3x3 blk.conv2 (out3 b)
  let out5 := batchNorm2d training blk.bn2 out4
  fun b c i j => relu (out5 b c i j + x b c i j)

/-- Parameters of an `nn.Linear(inF, outF)` module (weight and bias). -/
structure LinearParams (inF outF : ℕ) where
  weight : Fin outF → Fin inF → ℝ
  bias : Fin outF → ℝ

/-- `nn.Linear`: `y = x Aᵀ + b`. -/
def linearForward {inF outF : ℕ} (p : LinearParams inF outF)
    (v : Fin inF → ℝ) : Fin outF → ℝ :=
  fun o => (∑ k : Fin inF, p.weight o k * v k) + p.bias o

/-- `policy.view(policy.size(0), -1)` on a [B, 2, 8, 8] tensor: row-major
flatten, channel-major then spatial, giving index c * 64 + i * 8 + j. -/
def flatten2 {B : ℕ} (x : Batch B 2) : Fin B → Fin 128 → ℝ :=
  fun b k =>
    x b ⟨k.val / 64, by have := k.isLt; omega⟩
      ⟨k.val % 64 / 8, by omega⟩ ⟨k.val % 8, by omega⟩

/-- `value.view(value.size(0), -1)` on a [B, 1, 8, 8] tensor. -/
def flatten1 {B : ℕ} (x : Batch B 1) : Fin B → Fin 64 → ℝ :=
  fun b k =>
    x b ⟨0, by omega⟩ ⟨k.val / 8, by have := k.isLt; omega⟩ ⟨k.val % 8, by omega⟩

/-- All parameters of a `ChessNet` with `num_filters = F`; the residual
tower is the ordered list of its blocks (`nn.ModuleList`). -/
structure ChessNetParams (F : ℕ) where
  initial_conv : Fin F → Fin 18 → Fin 3 → Fin 3 → ℝ
  initial_bn : BatchNormParams F
  residual_blocks : List (ResidualBlockParams F)
  policy_conv : Fin 2 → Fin F → ℝ
  policy_bn : BatchNormParams 2
  policy_fc : LinearParams 128 4096
  value_conv : Fin 1 → Fin F → ℝ
  value_bn : BatchNormParams 1
  value_fc1 : LinearParams 64 256
  value_fc2 : LinearParams 256 1

/-- The `for block in self.residual_blocks` loop of `ChessNet.forward`. -/
def residualTower {F B : ℕ} (blocks : List (ResidualBlockParams F))
    (training : Bool) (x : Batch B F) : Batch B F :=
  blocks.foldl (fun acc blk => residualBlockForward blk training acc) x

/-- Initial convolution section of `ChessNet.forward`: conv -> bn -> relu. -/
def initialStage {F B : ℕ} (p : ChessNetParams F) (training : Bool)
    (x : Batch B 18) : Batch B F :=
  let x1 := fun b => conv3x3 p.initial_conv (x b)
  let x2 := batchNorm2d training p.initial_bn x1
  fun b c i j => relu (x2 b c i j)

/-- Policy head of `ChessNet.forward`: 1x1 conv -> bn -> relu -> flatten ->
linear; the outputs are raw logits (no softmax). -/
def policyHead {F B : ℕ} (p : ChessNetParams F) (training : Bool)
    (t : Batch B F) : Fin B → Fin 4096 → ℝ :=
  let pc := fun b => conv1x1 p.policy_conv (t b)
  let pbn := batchNorm2d training p.policy_bn pc
  let pr : Batch B 2 := fun b c i j => relu (pbn b c i j)
  fun b => linearForward p.policy_fc (flatten2 pr b)

/-- Value head of `ChessNet.forward`: 1x1 conv -> bn -> relu -> flatten ->
linear -> relu -> linear -> tanh. -/
def valueHead {F B : ℕ} (p : ChessNetParams F) (training : Bool)
    (t : Batch B F) : Fin B → Fin 1 → ℝ :=
  let vc := fun b => conv1x1 p.value_conv (t b)
  let vbn := batchNorm2d training p.value_bn vc
  let vr : Batch B 1 := fun b c i j => relu (vbn b c i j)
  let vf := flatten1 vr
  let v1 := fun b k => relu (linearForward p.value_fc1 (vf b) k)
  fun b k => Real.tanh (linearForward p.value_fc2 (v1 b) k)

/-- `ChessNet.forward`: initial stage, residual tower, then the two heads,
returning `(policy_logits, value)`. -/
def chessNetForward {F B : ℕ} (p : ChessNetParams F) (training : Bool)
    (x : Batch B 18) : (Fin B → Fin 4096 → ℝ) × (Fin B → Fin 1 → ℝ) :=
  let trunk := residualTower p.residual_blocks training (initialStage p training x)
  (policyHead p training trunk, valueHead p training trunk)

/-- The batch of size 1 holding just element `b` of `x` (the tensor handed
to `forward` when a position is evaluated alone). -/
def singleOf {B C : ℕ} (x : Batch B C) (b : Fin B) : Batch 1 C :=
  fun _ => x b

/-- The `nn.ModuleList([ResidualBlock(num_filters) for _ in range(num_blocks)])`
construction of `ChessNet.__init__`. `num_blocks` is the (signed) Python
argument; `range(n)` of a negative `n` is empty, which `Int.toNat` models.
`mk` stands for the per-block parameter initialisation scheme. -/
def initResidualBlocks (F : ℕ) (numBlocks : ℤ)
    (mk : ℕ → ResidualBlockParams F) : List (ResidualBlockParams F) :=
  (List.range numBlocks.toNat).map mk

/-- All-zero batch-norm parameters and buffers. -/
def zeroBN (C : ℕ) : BatchNormParams C :=
  ⟨fun _ => 0, fun _ => 0, fun _ => 0, fun _ => 0⟩

/-- All-zero linear-layer parameters. -/
def zeroLinear (inF outF : ℕ) : LinearParams inF outF :=
  ⟨fun _ _ => 0, fun _ => 0⟩

/-- A residual block whose parameters are all zero. -/
def zeroResBlockParams (F : ℕ) : ResidualBlockParams F :=
  ⟨fun _ _ _ _ => 0, zeroBN F, fun _ _ _ _ => 0, zeroBN F⟩

/-- A concrete `ChessNet(num_filters = 1)` parameter set with zero weights
and no residual blocks, used to instantiate universally quantified theorems. -/
def zeroChessNetParams : ChessNetParams 1 :=
  ⟨fun _ _ _ _ => 0, zeroBN 1, [], fun _ _ => 0, zeroBN 2, zeroLinear 128 4096,
    fun _ _ => 0, zeroBN 1, zeroLinear 64 256, zeroLinear 256 1⟩

/-- A concrete batch of two identical (all-zero) input tensors. -/
def constInput : Batch 2 18 := fun _ _ _ _ => 0

end

/-! ## Castling-rights helpers for the frame-effect statement -/

/-- The four castling permissions in channel order: 0 = white kingside,
1 = white queenside, 2 = black kingside, 3 = black queenside. -/
def castleFlag (b : Board) (i : Fin 4) : Bool :=
  match i with
  | 0 => b.castleWK
  | 1 => b.castleWQ
  | 2 => b.castleBK
  | 3 => b.castleBQ

/-- The board equal to `b` except that the `i`-th castling permission is
removed. -/
def clearCastle (b : Board) (i : Fin 4) : Board :=
  match i with
  | 0 => { b with castleWK := false }
  | 1 => { b with castleWQ := false }
  | 2 => { b with castleBK := false }
  | 3 => { b with castleBQ := false }

/-- The encoding plane of the `i`-th castling permission (13-16). -/
def castleChannel (i : Fin 4) : Fin 18 :=
  ⟨13 + i.val, by have := i.isLt; omega⟩

/-- A concrete position: a white pawn on a2, all castling rights, white to
move, no en-passant square. -/
def sampleBoard : Board where
  pieceAt := fun sq => if sq = squareAt 1 0 then some ⟨true, 0⟩ else none
  turn := true
  castleWK := true
  castleWQ := true
  castleBK := true
  castleBQ := true
  epSquare := none

/-! ## Shape semantics of `ChessNet.forward`

The data layers above fix the spatial size to 8 x 8, which is the shape the
docstring promises. What `forward` actually accepts is decided by the
runtime shape checks of the torch layers it chains, modelled here as shape
transfer functions over (channels, height, width). `nn.Conv2d` raises
unless the input channel count matches `in_channels` and the computed
output spatial size `h + 2*padding - kernel + 1` is at least 1;
`nn.BatchNorm2d` raises unless the channel count matches `num_features`;
`view(batch, -1)` flattens without complaint; `nn.Linear` raises unless the
flattened feature count matches `in_features`. -/

/-- Shape transfer of `nn.Conv2d(inC, outC, k, padding=pad, bias=False)`. -/
def conv2dShape (inC outC k pad : ℕ) (s : ℕ × ℕ × ℕ) : Option (ℕ × ℕ × ℕ) :=
  if s.1 = inC ∧ k ≤ s.2.1 + 2 * pad ∧ k ≤ s.2.2 + 2 * pad then
    some (outC, s.2.1 + 2 * pad - k + 1, s.2.2 + 2 * pad - k + 1)
  else none

/-- Shape transfer of `nn.BatchNorm2d(numFeatures)` (relu is shape-neutral). -/
def batchNormShape (numFeatures : ℕ) (s : ℕ × ℕ × ℕ) : Option (ℕ × ℕ × ℕ) :=
  if s.1 = numFeatures then some s else none

/-- Feature count after `view(batch, -1)`. -/
def flattenShape (s : ℕ × ℕ × ℕ) : ℕ := s.1 * s.2.1 * s.2.2

/-- Shape transfer of `nn.Linear(inF, outF)` on a flattened vector. -/
def linearShape (inF outF n : ℕ) : Option ℕ :=
  if n = inF then some outF else none

/-- Shape transfer of `ResidualBlock.forward`: two 3x3 padded convolutions
with batch norms; the skip addition requires the transformed shape to match
the input shape. -/
def residualBlockShape (F : ℕ) (s : ℕ × ℕ × ℕ) : Option (ℕ × ℕ × ℕ) :=
  (((conv2dShape F F 3 1 s).bind (batchNormShape F)).bind
    (fun t => (conv2dShape F F 3 1 t).bind (batchNormShape F))).bind
    (fun t => if t = s then some s else none)

/-- Shape transfer of the whole `ChessNet.forward` on an input of shape
(c, h, w): the layer chain of the source in order; `some (4096, 1)` means
the call returns a (policy, value) pair of those widths, `none` means some
layer raises. -/
def chessNetForwardShape (numBlocks F : ℕ) (s : ℕ × ℕ × ℕ) : Option (ℕ × ℕ) :=
  ((((conv2dShape 18 F 3 1 s).bind (batchNormShape F)).bind
    (fun t => (List.range numBlocks).foldl
      (fun acc _ => acc.bind (residualBlockShape F)) (some t))).bind
    (fun t =>
      (((conv2dShape F 2 1 0 t).bind (batchNormShape 2)).bind
        (fun tp => linearShape 128 4096 (flattenShape tp))).bind
      (fun pOut =>
        ((((conv2dShape F 1 1 0 t).bind (batchNormShape 1)).bind
          (fun tv => linearShape 64 256 (flattenShape tv))).bind
          (fun n1 => linearShape 256 1 n1)).bind
        (fun vOut => some (pOut, vOut)))))

/-! ## Trainable-parameter counts

`ChessNet.count_parameters` sums `p.numel()` over all trainable parameters.
Per torch module: a bias-free `Conv2d(inC, outC, k)` owns `outC*inC*k*k`
weights; a `BatchNorm2d(c)` owns the affine `weight` and `bias` vectors
(`2*c`; the running statistics are buffers, not parameters); a
`Linear(inF, outF)` owns `outF*inF` weights plus `outF` biases. -/

def conv2dParamCount (inC outC k : ℕ) : ℕ := outC * inC * k * k

def batchNorm2dParamCount (c : ℕ) : ℕ := c + c

def linearParamCount (inF outF : ℕ) : ℕ := outF * inF + outF

/-- Parameters of one `ResidualBlock(F)`: conv1, bn1, conv2, bn2. -/
def residualBlockParamCount (F : ℕ) : ℕ :=
  conv2dParamCount F F 3 + batchNorm2dParamCount F
    + conv2dParamCount F F 3 + batchNorm2dParamCount F

/-- Total trainable parameters of `ChessNet(numBlocks, F)`, module by module
in the order of `__init__`. -/
def chessNetParamCount (numBlocks F : ℕ) : ℕ :=
  conv2dParamCount 18 F 3 + batchNorm2dParamCount F
    + ((List.range numBlocks).map (fun _ => residualBlockParamCount F)).sum
    + conv2dParamCount F 2 1 + batchNorm2dParamCount 2
    + linearParamCount 128 4096
    + conv2dParamCount F 1 1 + batchNorm2dParamCount 1
    + linearParamCount 64 256 + linearParamCount 256 1

/-! ## Theorems -/

theorem pieceChannel_lt (p : Piece) : (pieceChannel p).val < 12 := by
  unfold pieceChannel
  have := p.pieceType.isLt
  split <;> simp <;> omega

theorem squareAt_rank (r f : Fin 8) : squareRank (squareAt r f) = r := by
  unfold squareRank squareAt
  have := r.isLt; have := f.isLt
  apply Fin.ext
  simp
  omega

theorem squareAt_file (r f : Fin 8) : squareFile (squareAt r f) = f := by
  unfold squareFile squareAt
  have := r.isLt; have := f.isLt
  apply Fin.ext
  simp
  omega

theorem squareAt_eta (sq : Fin 64) :
    squareAt (squareRank sq) (squareFile sq) = sq := by
  unfold squareRank squareFile squareAt
  apply Fin.ext
  simp
  omega

/-- Squares other than `squareAt r f` never write to cells in rank `r`,
file `f`. -/
theorem encodePieceAt_ne (b : Board) (e : Encoding) (sq : Fin 64)
    (c : Fin 18) (r f : Fin 8) (h : sq ≠ squareAt r f) :
    encodePieceAt b e sq c r f = e c r f := by
  unfold encodePieceAt
  cases hp : b.pieceAt sq with
  | none => rfl
  | some p =>
    dsimp only [setCell]
    rw [if_neg]
    rintro ⟨-, hr, hf⟩
    exact h (by rw [hr, hf, squareAt_eta])

theorem foldl_encodePieceAt_notMem (b : Board) (l : List (Fin 64))
    (e : Encoding) (c : Fin 18) (r f : Fin 8) (h : squareAt r f ∉ l) :
    (l.foldl (encodePieceAt b) e) c r f = e c r f := by
  induction l generalizing e with
  | nil => rfl
  | cons sq t ih =>
    rw [List.foldl_cons, ih _ (fun hm => h (List.mem_cons_of_mem _ hm))]
    exact encodePieceAt_ne b e sq c r f (fun hsq => h (hsq ▸ List.mem_cons_self _ _))

theorem foldl_encodePieceAt_mem (b : Board) (l : List (Fin 64))
    (hnd : l.Nodup) (e : Encoding) (c : Fin 18) (r f : Fin 8)
    (hmem : squareAt r f ∈ l) :
    (l.foldl (encodePieceAt b) e) c r f =
      match b.pieceAt (squareAt r f) with
      | some p => if pieceChannel p = c then 1 else e c r f
      | none => e c r f := by
  induction l generalizing e with
  | nil => cases hmem
  | cons sq t ih =>
    rw [List.foldl_cons]
    rcases List.nodup_cons.1 hnd with ⟨hout, hndt⟩
    rcases List.mem_cons.1 hmem with hhead | htail
    · subst hhead
      rw [foldl_encodePieceAt_notMem b t _ c r f hout]
      unfold encodePieceAt
      cases hp : b.pieceAt (squareAt r f) with
      | none => rfl
      | some p =>
        dsimp only [setCell]
        rw [squareAt_rank, squareAt_file]
        by_cases hc : c = pieceChannel p
        · rw [if_pos ⟨hc, rfl, rfl⟩, if_pos hc.symm]
        · rw [if_neg (fun hcon => hc hcon.1), if_neg (fun hcon => hc hcon.symm)]
    · rw [ih hndt _ htail]
      have hne : sq ≠ squareAt r f := fun hsq => hout (hsq ▸ htail)
      have he := encodePieceAt_ne b e sq c r f hne
      cases hp : b.pieceAt (squareAt r f) with
      | none => exact he
      | some p =>
        dsimp only
        by_cases hc : pieceChannel p = c
        · rw [if_pos hc, if_pos hc]
        · rw [if_neg hc, if_neg hc]; exact he

theorem piecePlanes_low (b : Board) (c : Fin 18) (r f : Fin 8) :
    piecePlanes b c r f =
      match b.pieceAt (squareAt r f) with
      | some p => if pieceChannel p = c then 1 else 0
      | none => 0 := by
  unfold piecePlanes
  rw [foldl_encodePieceAt_mem b boardSquares (List.nodup_finRange 64) _ c r f
    (List.mem_finRange _)]

theorem foldl_encodePieceAt_high (b : Board) (l : List (Fin 64))
    (e : Encoding) (c : Fin 18) (hc : 12 ≤ c.val) (r f : Fin 8) :
    (l.foldl (encodePieceAt b) e) c r f = e c r f := by
  induction l generalizing e with
  | nil => rfl
  | cons sq t ih =>
    rw [List.foldl_cons, ih]
    unfold encodePieceAt
    cases hp : b.pieceAt sq with
    | none => rfl
    | some p =>
      dsimp only [setCell]
      rw [if_neg]
      rintro ⟨hcc, -, -⟩
      have := pieceChannel_lt p
      rw [hcc] at hc
      omega

theorem piecePlanes_high (b : Board) (c : Fin 18) (hc : 12 ≤ c.val)
    (r f : Fin 8) : piecePlanes b c r f = 0 :=
  foldl_encodePieceAt_high b boardSquares _ c hc r f

theorem withTurn_ne (b : Board) (e : Encoding) (c : Fin 18) (hc : c ≠ 12)
    (r f : Fin 8) : withTurn b e c r f = e c r f := by
  unfold withTurn setPlane
  cases b.turn <;> simp [hc]

theorem withTurn_at (b : Board) (e : Encoding) (r f : Fin 8) :
    withTurn b e 12 r f = if b.turn then 1 else e 12 r f := by
  unfold withTurn setPlane
  cases b.turn <;> simp

theorem withCastling_ne (b : Board) (e : Encoding) (c : Fin 18)
    (h13 : c ≠ 13) (h14 : c ≠ 14) (h15 : c ≠ 15) (h16 : c ≠ 16)
    (r f : Fin 8) : withCastling b e c r f = e c r f := by
  unfold withCastling setPlane
  cases b.castleWK <;> cases b.castleWQ <;> cases b.castleBK <;>
    cases b.castleBQ <;> simp [h13, h14, h15, h16]

theorem withCastling_at_13 (b : Board) (e : Encoding) (r f : Fin 8) :
    withCastling b e 13 r f = if b.castleWK then 1 else e 13 r f := by
  unfold withCastling setPlane
  cases b.castleWK <;> cases b.castleWQ <;> cases b.castleBK <;>
    cases b.castleBQ <;> simp +decide

theorem withCastling_at_14 (b : Board) (e : Encoding) (r f : Fin 8) :
    withCastling b e 14 r f = if b.castleWQ then 1 else e 14 r f := by
  unfold withCastling setPlane
  cases b.castleWK <;> cases b.castleWQ <;> cases b.castleBK <;>
    cases b.castleBQ <;> simp +decide

theorem withCastling_at_15 (b : Board) (e : Encoding) (r f : Fin 8) :
    withCastling b e 15 r f = if b.castleBK then 1 else e 15 r f := by
  unfold withCastling setPlane
  cases b.castleWK <;> cases b.castleWQ <;> cases b.castleBK <;>
    cases b.castleBQ <;> simp +decide

theorem withCastling_at_16 (b : Board) (e : Encoding) (r f : Fin 8) :
    withCastling b e 16 r f = if b.castleBQ then 1 else e 16 r f := by
  unfold withCastling setPlane
  cases b.castleWK <;> cases b.castleWQ <;> cases b.castleBK <;>
    cases b.castleBQ <;> simp +decide

theorem withEp_ne (b : Board) (e : Encoding) (c : Fin 18) (hc : c ≠ 17)
    (r f : Fin 8) : withEp b e c r f = e c r f := by
  unfold withEp setColumn
  cases b.epSquare <;> simp [hc]

theorem withEp_at (b : Board) (e : Encoding) (r f : Fin 8) :
    withEp b e 17 r f =
      match b.epSquare with
      | some sq => if f = squareFile sq then 1 else e 17 r f
      | none => e 17 r f := by
  unfold withEp setColumn
  cases b.epSquare with
  | none => rfl
  | some sq =>
    dsimp only
    by_cases hf : f = squareFile sq
    · rw [if_pos ⟨rfl, hf⟩, if_pos hf]
    · rw [if_neg (fun hcon => hf hcon.2), if_neg hf]

theorem encode_board_piece_cell (b : Board) (c : Fin 18) (hc : c.val < 12)
    (r f : Fin 8) :
    encode_board b c r f =
      match b.pieceAt (squareAt r f) with
      | some p => if pieceChannel p = c then 1 else 0
      | none => 0 := by
  unfold encode_board
  rw [withEp_ne b _ c (by intro h; subst h; exact absurd hc (by decide)) r f,
    withCastling_ne b _ c (by intro h; subst h; exact absurd hc (by decide))
      (by intro h; subst h; exact absurd hc (by decide))
      (by intro h; subst h; exact absurd hc (by decide))
      (by intro h; subst h; exact absurd hc (by decide)) r f,
    withTurn_ne b _ c (by intro h; subst h; exact absurd hc (by decide)) r f,
    piecePlanes_low b c r f]

theorem encode_board_turn_cell (b : Board) (r f : Fin 8) :
    encode_board b 12 r f = if b.turn then 1 else 0 := by
  unfold encode_board
  rw [withEp_ne b _ 12 (by decide) r f,
    withCastling_ne b _ 12 (by decide) (by decide) (by decide) (by decide) r f,
    withTurn_at, piecePlanes_high b 12 (by decide) r f]

theorem encode_board_castleWK_cell (b : Board) (r f : Fin 8) :
    encode_board b 13 r f = if b.castleWK then 1 else 0 := by
  unfold encode_board
  rw [withEp_ne b _ 13 (by decide) r f, withCastling_at_13,
    withTurn_ne b _ 13 (by decide) r f, piecePlanes_high b 13 (by decide) r f]

theorem encode_board_castleWQ_cell (b : Board) (r f : Fin 8) :
    encode_board b 14 r f = if b.castleWQ then 1 else 0 := by
  unfold encode_board
  rw [withEp_ne b _ 14 (by decide) r f, withCastling_at_14,
    withTurn_ne b _ 14 (by decide) r f, piecePlanes_high b 14 (by decide) r f]

theorem encode_board_castleBK_cell (b : Board) (r f : Fin 8) :
    encode_board b 15 r f = if b.castleBK then 1 else 0 := by
  unfold encode_board
  rw [withEp_ne b _ 15 (by decide) r f, withCastling_at_15,
    withTurn_ne b _ 15 (by decide) r f, piecePlanes_high b 15 (by decide) r f]

theorem encode_board_castleBQ_cell (b : Board) (r f : Fin 8) :
    encode_board b 16 r f = if b.castleBQ then 1 else 0 := by
  unfold encode_board
  rw [withEp_ne b _ 16 (by decide) r f, withCastling_at_16,
    withTurn_ne b _ 16 (by decide) r f, piecePlanes_high b 16 (by decide) r f]

theorem encode_board_ep_cell (b : Board) (r f : Fin 8) :
    encode_board b 17 r f =
      match b.epSquare with
      | some sq => if f = squareFile sq then 1 else 0
      | none => 0 := by
  unfold encode_board
  rw [withEp_at]
  have hbase : withCastling b (withTurn b (piecePlanes b)) 17 r f = 0 := by
    rw [withCastling_ne b _ 17 (by decide) (by decide) (by decide) (by decide) r f,
      withTurn_ne b _ 17 (by decide) r f, piecePlanes_high b 17 (by decide) r f]
  cases b.epSquare with
  | none => exact hbase
  | some sq =>
    dsimp only
    by_cases hf : f = squareFile sq
    · rw [if_pos hf, if_pos hf]
    · rw [if_neg hf, if_neg hf]; exact hbase


theorem tanh_le_one (x : ℝ) : Real.tanh x ≤ 1 := by
  rw [Real.tanh_eq_sinh_div_cosh]
  exact (div_le_one (Real.cosh_pos x)).2 (Real.sinh_lt_cosh x).le

theorem neg_one_le_tanh (x : ℝ) : -1 ≤ Real.tanh x := by
  rw [Real.tanh_eq_sinh_div_cosh]
  rw [le_div_iff₀ (Real.cosh_pos x)]
  have h := Real.sinh_lt_cosh (-x)
  rw [Real.sinh_neg, Real.cosh_neg] at h
  linarith

/-! ### Inference-mode evaluation is per-element -/

theorem residualBlockForward_eval_single {F B : ℕ} (blk : ResidualBlockParams F)
    (x : Batch B F) (b : Fin B) :
    residualBlockForward blk false (singleOf x b)
      = singleOf (residualBlockForward blk false x) b := rfl

theorem residualTower_eval_single {F B : ℕ} (blocks : List (ResidualBlockParams F))
    (x : Batch B F) (b : Fin B) :
    residualTower blocks false (singleOf x b)
      = singleOf (residualTower blocks false x) b := by
  induction blocks generalizing x with
  | nil => rfl
  | cons blk t ih =>
    show residualTower t false (residualBlockForward blk false (singleOf x b)) = _
    rw [residualBlockForward_eval_single]
    exact ih (residualBlockForward blk false x)

theorem chessNetForward_eval_elem {F : ℕ} (p : ChessNetParams F) (B : ℕ)
    (x : Batch B 18) (b : Fin B) :
    (chessNetForward p false (singleOf x b)).1 0 = (chessNetForward p false x).1 b ∧
    (chessNetForward p false (singleOf x b)).2 0 = (chessNetForward p false x).2 b := by
  have hinit : initialStage p false (singleOf x b)
      = singleOf (initialStage p false x) b := rfl
  have htr : residualTower p.residual_blocks false (initialStage p false (singleOf x b))
      = singleOf (residualTower p.residual_blocks false (initialStage p false x)) b := by
    rw [hinit, residualTower_eval_single]
  constructor
  · show policyHead p false
        (residualTower p.residual_blocks false (initialStage p false (singleOf x b))) 0 = _
    rw [htr]
    rfl
  · show valueHead p false
        (residualTower p.residual_blocks false (initialStage p false (singleOf x b))) 0 = _
    rw [htr]
    rfl

/-! ### Claim theorems for the network -/

/-- C2: a `ResidualBlock` whose parameters (both convolution weights and
both batch-norm affine parameter pairs) are all zero maps any input
activation X of shape [B, F, 8, 8] to exactly `relu` applied elementwise to
X: the zeroed second batch norm outputs zero regardless of mode or
statistics, so the skip connection passes X through and only the final
rectification acts. -/
theorem residualBlock_zero_weights_is_relu {F B : ℕ} (blk : ResidualBlockParams F)
    (_hc1 : blk.conv1 = fun _ _ _ _ => 0) (_hc2 : blk.conv2 = fun _ _ _ _ => 0)
    (_hw1 : blk.bn1.weight = fun _ => 0) (_hb1 : blk.bn1.bias = fun _ => 0)
    (hw2 : blk.bn2.weight = fun _ => 0) (hb2 : blk.bn2.bias = fun _ => 0)
    (training : Bool) (x : Batch B F) (b : Fin B) (c : Fin F) (i j : Fin 8) :
    residualBlockForward blk training x b c i j = relu (x b c i j) := by
  have h5 : ∀ y : Batch B F, batchNorm2d training blk.bn2 y b c i j = 0 := by
    intro y
    unfold batchNorm2d
    cases training <;> simp [hw2, hb2]
  show relu (batchNorm2d training blk.bn2 _ b c i j + x b c i j) = relu (x b c i j)
  rw [h5, zero_add]

/-- Witness for C2 at a concrete all-zero block and a concrete input. -/
theorem residualBlock_zero_weights_is_relu_witness :
    ((zeroResBlockParams 1).conv1 = fun _ _ _ _ => 0) ∧
    ((zeroResBlockParams 1).conv2 = fun _ _ _ _ => 0) ∧
    ((zeroResBlockParams 1).bn1.weight = fun _ => 0) ∧
    ((zeroResBlockParams 1).bn1.bias = fun _ => 0) ∧
    ((zeroResBlockParams 1).bn2.weight = fun _ => 0) ∧
    ((zeroResBlockParams 1).bn2.bias = fun _ => 0) ∧
    residualBlockForward (zeroResBlockParams 1) false
      ((fun _ _ _ _ => (5 : ℝ)) : Batch 1 1) 0 0 0 0 = relu 5 :=
  ⟨rfl, rfl, rfl, rfl, rfl, rfl,
    residualBlock_zero_weights_is_relu (zeroResBlockParams 1) rfl rfl rfl rfl rfl rfl
      false ((fun _ _ _ _ => (5 : ℝ)) : Batch 1 1) 0 0 0 0⟩

/-- C4: for every parameter set, every mode, and every input of shape
[B, 18, 8, 8] with arbitrary real entries, each element of the value output
of `ChessNet.forward` lies in [-1, 1], because the last value-head stage is
`torch.tanh`. -/
theorem chessNet_value_in_unit_interval {F B : ℕ} (p : ChessNetParams F)
    (training : Bool) (x : Batch B 18) (b : Fin B) (k : Fin 1) :
    -1 ≤ (chessNetForward p training x).2 b k ∧
      (chessNetForward p training x).2 b k ≤ 1 := by
  obtain ⟨y, hy⟩ : ∃ y, (chessNetForward p training x).2 b k = Real.tanh y := ⟨_, rfl⟩
  rw [hy]
  exact ⟨neg_one_le_tanh y, tanh_le_one y⟩

/-- C5: in inference mode (batch-norm statistics frozen to running
estimates), the per-element (policy, value) result of `ChessNet.forward`
for element `b` of a batch equals the result of evaluating that element
alone in a batch of size 1; in particular any two batch elements holding
identical inputs receive identical (policy, value) pairs. -/
theorem chessNet_batch_invariance {F : ℕ} (p : ChessNetParams F) (B : ℕ)
    (x : Batch B 18) (b : Fin B) :
    ((chessNetForward p false x).1 b = (chessNetForward p false (singleOf x b)).1 0 ∧
     (chessNetForward p false x).2 b = (chessNetForward p false (singleOf x b)).2 0) ∧
    ∀ b2 : Fin B, x b = x b2 →
      (chessNetForward p false x).1 b = (chessNetForward p false x).1 b2 ∧
      (chessNetForward p false x).2 b = (chessNetForward p false x).2 b2 := by
  constructor
  · exact ⟨(chessNetForward_eval_elem p B x b).1.symm,
      (chessNetForward_eval_elem p B x b).2.symm⟩
  · intro b2 h
    have hs : singleOf x b = singleOf x b2 := funext fun _ => h
    constructor
    · rw [← (chessNetForward_eval_elem p B x b).1,
        ← (chessNetForward_eval_elem p B x b2).1, hs]
    · rw [← (chessNetForward_eval_elem p B x b).2,
        ← (chessNetForward_eval_elem p B x b2).2, hs]

/-- Witness for C5: a batch of two identical inputs yields identical
(policy, value) pairs for both elements. -/
theorem chessNet_batch_invariance_witness :
    constInput 0 = constInput 1 ∧
    ((chessNetForward zeroChessNetParams false constInput).1 0
        = (chessNetForward zeroChessNetParams false constInput).1 1 ∧
     (chessNetForward zeroChessNetParams false constInput).2 0
        = (chessNetForward zeroChessNetParams false constInput).2 1) :=
  ⟨rfl, (chessNet_batch_invariance zeroChessNetParams 2 constInput 0).2 1 rfl⟩

/-! ### Shape acceptance of `forward` -/

theorem residualBlockShape_fixed (F h w : ℕ) (hh : 1 ≤ h) (hw : 1 ≤ w) :
    residualBlockShape F (F, h, w) = some (F, h, w) := by
  have h3 : 3 ≤ h + 2 * 1 := by omega
  have w3 : 3 ≤ w + 2 * 1 := by omega
  simp [residualBlockShape, conv2dShape, batchNormShape, h3, w3]
  omega

theorem shapeFold_fixed (F : ℕ) (l : List ℕ) (h w : ℕ) (hh : 1 ≤ h) (hw : 1 ≤ w) :
    l.foldl (fun acc _ => acc.bind (residualBlockShape F)) (some (F, h, w))
      = some (F, h, w) := by
  induction l with
  | nil => rfl
  | cons a t ih =>
    rw [List.foldl_cons]
    have hb : (some (F, h, w)).bind (residualBlockShape F) = some (F, h, w) := by
      rw [Option.some_bind', residualBlockShape_fixed F h w hh hw]
    rw [hb]
    exact ih

/-- C1 counterexample: the input shape (channels 18, spatial 4 x 16) has
spatial dimensions different from 8 x 8, yet `forward` raises nowhere and
returns a (policy, value) pair: every convolution is spatially agnostic and
`view(batch, -1)` silently reshapes 2*4*16 = 128 and 1*4*16 = 64 features
into exactly what the linear layers expect. -/
theorem chessNet_forward_accepts_4x16 :
    ¬((4, 16) = ((8 : ℕ), (8 : ℕ))) ∧
    chessNetForwardShape 6 128 (18, 4, 16) = some (4096, 1) :=
  ⟨by decide, by decide⟩

/-- C1 (amended): `forward` fails fast when the channel count is not 18
(the initial convolution checks it) and when the flattened spatial size
does not fit the fully connected layers; precisely, an input of shape
(c, h, w) reaches the outputs iff c = 18 and h * w = 64. Spatial shapes
such as 4 x 16 with product 64 are accepted and silently reshaped, so the
fail-fast guarantee holds only up to the spatial product, not 8 x 8
itself. -/
theorem chessNet_forward_shape_acceptance (N F c h w : ℕ) :
    chessNetForwardShape N F (c, h, w)
      = if c = 18 ∧ h * w = 64 then some (4096, 1) else none := by
  by_cases hc : c = 18
  · subst hc
    by_cases hh : 1 ≤ h
    · by_cases hw : 1 ≤ w
      · have h3 : 3 ≤ h + 2 * 1 := by omega
        have w3 : 3 ≤ w + 2 * 1 := by omega
        have e1 : h - 1 + 1 = h := by omega
        have e2 : w - 1 + 1 = w := by omega
        by_cases hm : h * w = 64
        · have hp : 2 * h * w = 128 := by
            have : 2 * h * w = 2 * (h * w) := by ring
            omega
          rw [if_pos ⟨rfl, hm⟩]
          simp [chessNetForwardShape, conv2dShape, batchNormShape, linearShape,
            flattenShape, h3, w3, e1, e2, hh, hw, hm, hp,
            shapeFold_fixed F (List.range N) h w hh hw]
        · have hp : ¬(2 * h * w = 128) := by
            have : 2 * h * w = 2 * (h * w) := by ring
            omega
          rw [if_neg (fun hcon => hm hcon.2)]
          simp [chessNetForwardShape, conv2dShape, batchNormShape, linearShape,
            flattenShape, h3, w3, e1, e2, hh, hw, hm, hp,
            shapeFold_fixed F (List.range N) h w hh hw]
      · have hw0 : w = 0 := by omega
        subst hw0
        have : ¬(3 ≤ 0 + 2 * 1) := by omega
        simp [chessNetForwardShape, conv2dShape, this]
    · have hh0 : h = 0 := by omega
      subst hh0
      have : ¬(3 ≤ 0 + 2 * 1) := by omega
      simp [chessNetForwardShape, conv2dShape, this]
  · simp [chessNetForwardShape, conv2dShape, hc]

/-! ### Parameter-count scaling -/

theorem range_map_const_sum (N K : ℕ) :
    ((List.range N).map (fun _ => K)).sum = N * K := by
  induction N with
  | zero => simp
  | succ n ih =>
    rw [List.range_succ, List.map_append, List.sum_append, ih]
    simp [Nat.succ_mul]

theorem chessNetParamCount_closed (N F : ℕ) :
    chessNetParamCount N F = N * (18 * F * F + 4 * F) + 167 * F + 545287 := by
  unfold chessNetParamCount residualBlockParamCount conv2dParamCount
    batchNorm2dParamCount linearParamCount
  rw [range_map_const_sum]
  ring

/-- C8: the total trainable-parameter count of `ChessNet(N, F)` is strictly
increasing in the block count N (for any filter count F >= 1) and strictly
increasing in the filter count F (for any block count N >= 0, which a ℕ
block count makes implicit). -/
theorem chessNet_paramCount_strict_mono (N N2 F F2 : ℕ) :
    (1 ≤ F → N < N2 → chessNetParamCount N F < chessNetParamCount N2 F) ∧
    (F < F2 → chessNetParamCount N F < chessNetParamCount N F2) := by
  constructor
  · intro hF hN
    rw [chessNetParamCount_closed, chessNetParamCount_closed]
    have hK : 0 < 18 * F * F + 4 * F := by
      have h4 : 0 < 4 * F := by omega
      omega
    have h2 : N * (18 * F * F + 4 * F) < N2 * (18 * F * F + 4 * F) :=
      mul_lt_mul_of_pos_right hN hK
    exact Nat.add_lt_add_right (Nat.add_lt_add_right h2 (167 * F)) 545287
  · intro hF2
    rw [chessNetParamCount_closed, chessNetParamCount_closed]
    have hsq : F * F ≤ F2 * F2 := Nat.mul_le_mul hF2.le hF2.le
    have hb : 18 * F * F + 4 * F ≤ 18 * F2 * F2 + 4 * F2 := by
      have h18 : 18 * F * F = 18 * (F * F) := by ring
      have h18b : 18 * F2 * F2 = 18 * (F2 * F2) := by ring
      have h4 : 4 * F ≤ 4 * F2 := by omega
      have := Nat.mul_le_mul_left 18 hsq
      omega
    have h1 : N * (18 * F * F + 4 * F) ≤ N * (18 * F2 * F2 + 4 * F2) :=
      Nat.mul_le_mul_left N hb
    have h2 : 167 * F + 545287 < 167 * F2 + 545287 := by omega
    calc N * (18 * F * F + 4 * F) + 167 * F + 545287
        = N * (18 * F * F + 4 * F) + (167 * F + 545287) := by ring
      _ < N * (18 * F2 * F2 + 4 * F2) + (167 * F2 + 545287) :=
          add_lt_add_of_le_of_lt h1 h2
      _ = N * (18 * F2 * F2 + 4 * F2) + 167 * F2 + 545287 := by ring

/-- Witness for C8 at the default configuration: 6 -> 7 blocks and
128 -> 129 filters both strictly increase the parameter count. -/
theorem chessNet_paramCount_strict_mono_witness :
    (1 ≤ 128 ∧ 6 < 7 ∧ chessNetParamCount 6 128 < chessNetParamCount 7 128) ∧
    (128 < 129 ∧ chessNetParamCount 6 128 < chessNetParamCount 6 129) :=
  ⟨⟨by decide, by decide,
      (chessNet_paramCount_strict_mono 6 7 128 128).1 (by decide) (by decide)⟩,
    ⟨by decide, (chessNet_paramCount_strict_mono 6 6 128 129).2 (by decide)⟩⟩

/-! ### Negative block counts -/

/-- C10: `ChessNet.__init__` performs no validation of `num_blocks`; for a
negative value, `range(num_blocks)` is empty, so construction succeeds with
an empty residual tower (`initResidualBlocks` is total and returns `[]`),
and `forward` is the same function as for `ChessNet(0, num_filters)` with
the same remaining parameters: the input projection feeds directly into the
two heads. -/
theorem chessNet_negative_num_blocks (n : ℤ) (hn : n < 0) (F : ℕ)
    (mk mk0 : ℕ → ResidualBlockParams F) (p : ChessNetParams F) :
    initResidualBlocks F n mk = [] ∧
    ∀ (training : Bool) (B : ℕ) (x : Batch B 18),
      chessNetForward { p with residual_blocks := initResidualBlocks F n mk }
          training x
        = chessNetForward { p with residual_blocks := initResidualBlocks F 0 mk0 }
          training x := by
  have h1 : initResidualBlocks F n mk = [] := by
    unfold initResidualBlocks
    rw [Int.toNat_eq_zero.mpr hn.le]
    rfl
  have h0 : initResidualBlocks F 0 mk0 = [] := rfl
  refine ⟨h1, ?_⟩
  intro training B x
  rw [h1, h0]

/-- Witness for C10 at `num_blocks = -1` with concrete parameters. -/
theorem chessNet_negative_num_blocks_witness :
    (-1 : ℤ) < 0 ∧
    (initResidualBlocks 1 (-1) (fun _ => zeroResBlockParams 1) = [] ∧
     ∀ (training : Bool) (B : ℕ) (x : Batch B 18),
       chessNetForward
           { zeroChessNetParams with
             residual_blocks :=
               initResidualBlocks 1 (-1) (fun _ => zeroResBlockParams 1) }
           training x
         = chessNetForward
           { zeroChessNetParams with
             residual_blocks :=
               initResidualBlocks 1 0 (fun _ => zeroResBlockParams 1) }
           training x) :=
  ⟨by decide,
    chessNet_negative_num_blocks (-1) (by decide) 1
      (fun _ => zeroResBlockParams 1) (fun _ => zeroResBlockParams 1)
      zeroChessNetParams⟩

/-! ### Encoder claim theorems -/

/-- Two boards that agree on piece placement, turn, en passant, and on the
castling right a given channel reads, get equal encodings at that cell. -/
theorem encode_board_ext_cell (b b2 : Board) (c : Fin 18) (r f : Fin 8)
    (hp : b.pieceAt = b2.pieceAt) (ht : b.turn = b2.turn)
    (hwk : c = 13 → b.castleWK = b2.castleWK)
    (hwq : c = 14 → b.castleWQ = b2.castleWQ)
    (hbk : c = 15 → b.castleBK = b2.castleBK)
    (hbq : c = 16 → b.castleBQ = b2.castleBQ)
    (he : b.epSquare = b2.epSquare) :
    encode_board b c r f = encode_board b2 c r f := by
  by_cases h12 : c.val < 12
  · rw [encode_board_piece_cell b c h12 r f, encode_board_piece_cell b2 c h12 r f, hp]
  · have hlt := c.isLt
    have hcases : c.val = 12 ∨ c.val = 13 ∨ c.val = 14 ∨ c.val = 15 ∨
        c.val = 16 ∨ c.val = 17 := by omega
    rcases hcases with hv | hv | hv | hv | hv | hv
    · have hc : c = (12 : Fin 18) := Fin.ext (by
        have : ((12 : Fin 18)).val = 12 := rfl
        omega)
      subst hc
      rw [encode_board_turn_cell, encode_board_turn_cell, ht]
    · have hc : c = (13 : Fin 18) := Fin.ext (by
        have : ((13 : Fin 18)).val = 13 := rfl
        omega)
      subst hc
      rw [encode_board_castleWK_cell, encode_board_castleWK_cell, hwk rfl]
    · have hc : c = (14 : Fin 18) := Fin.ext (by
        have : ((14 : Fin 18)).val = 14 := rfl
        omega)
      subst hc
      rw [encode_board_castleWQ_cell, encode_board_castleWQ_cell, hwq rfl]
    · have hc : c = (15 : Fin 18) := Fin.ext (by
        have : ((15 : Fin 18)).val = 15 := rfl
        omega)
      subst hc
      rw [encode_board_castleBK_cell, encode_board_castleBK_cell, hbk rfl]
    · have hc : c = (16 : Fin 18) := Fin.ext (by
        have : ((16 : Fin 18)).val = 16 := rfl
        omega)
      subst hc
      rw [encode_board_castleBQ_cell, encode_board_castleBQ_cell, hbq rfl]
    · have hc : c = (17 : Fin 18) := Fin.ext (by
        have : ((17 : Fin 18)).val = 17 := rfl
        omega)
      subst hc
      rw [encode_board_ep_cell, encode_board_ep_cell, he]

/-- C3: plane 17 of the encoding is determined solely by the existence of
an en-passant target square: when one exists, its file's whole column holds
1 and every other cell of plane 17 holds 0; with no target square the plane
is all-zero. The board model carries no capture-legality information, so
the value cannot depend on whether the capture is actually legal. -/
theorem encode_board_ep_plane (b : Board) (r f : Fin 8) :
    encode_board b 17 r f =
      match b.epSquare with
      | some sq => if f = squareFile sq then 1 else 0
      | none => 0 :=
  encode_board_ep_cell b r f

/-- C6: the piece loop runs over a duplicate-free list of all 64 squares,
and for each square (given by its rank and file) the cell of every piece
plane 0-11 is 1 exactly on the single plane selected by the occupying
piece's owner band (0 or 6) plus its kind ordinal, and 0 on the other
planes and on every cell whose square is empty. -/
theorem encode_board_piece_planes :
    boardSquares.Nodup ∧ boardSquares.length = 64 ∧
    ∀ (b : Board) (r f : Fin 8) (c : Fin 18), c.val < 12 →
      encode_board b c r f =
        match b.pieceAt (squareAt r f) with
        | some p => if pieceChannel p = c then 1 else 0
        | none => 0 := by
  refine ⟨List.nodup_finRange 64, by simp [boardSquares], ?_⟩
  intro b r f c hc
  exact encode_board_piece_cell b c hc r f

/-- Witness for C6: white pawn of `sampleBoard` on rank 1, file 0 puts a 1
in plane 0. -/
theorem encode_board_piece_planes_witness :
    ((0 : Fin 18)).val < 12 ∧
    encode_board sampleBoard 0 1 0 =
      match sampleBoard.pieceAt (squareAt 1 0) with
      | some p => if pieceChannel p = (0 : Fin 18) then 1 else 0
      | none => 0 :=
  ⟨by decide, encode_board_piece_planes.2.2 sampleBoard 1 0 0 (by decide)⟩

/-- C7: for a board holding castling permission `i`, removing exactly that
permission flips the corresponding plane among 13-16 from all-1 to all-0,
and leaves every other plane of the encoding (the other three castling
planes included) unchanged. -/
theorem encode_board_castling_frame (b : Board) (i : Fin 4)
    (h : castleFlag b i = true) (c : Fin 18) (r f : Fin 8) :
    encode_board b (castleChannel i) r f = 1 ∧
    encode_board (clearCastle b i) (castleChannel i) r f = 0 ∧
    (c ≠ castleChannel i →
      encode_board (clearCastle b i) c r f = encode_board b c r f) := by
  match i with
  | 0 =>
    have hf : b.castleWK = true := h
    refine ⟨?_, ?_, ?_⟩
    · show encode_board b 13 r f = 1
      rw [encode_board_castleWK_cell, hf]
      rfl
    · show encode_board { b with castleWK := false } 13 r f = 0
      rw [encode_board_castleWK_cell]
      rfl
    · intro hc
      exact encode_board_ext_cell _ b c r f rfl rfl
        (fun hcon => absurd hcon hc) (fun _ => rfl) (fun _ => rfl) (fun _ => rfl) rfl
  | 1 =>
    have hf : b.castleWQ = true := h
    refine ⟨?_, ?_, ?_⟩
    · show encode_board b 14 r f = 1
      rw [encode_board_castleWQ_cell, hf]
      rfl
    · show encode_board { b with castleWQ := false } 14 r f = 0
      rw [encode_board_castleWQ_cell]
      rfl
    · intro hc
      exact encode_board_ext_cell _ b c r f rfl rfl
        (fun _ => rfl) (fun hcon => absurd hcon hc) (fun _ => rfl) (fun _ => rfl) rfl
  | 2 =>
    have hf : b.castleBK = true := h
    refine ⟨?_, ?_, ?_⟩
    · show encode_board b 15 r f = 1
      rw [encode_board_castleBK_cell, hf]
      rfl
    · show encode_board { b with castleBK := false } 15 r f = 0
      rw [encode_board_castleBK_cell]
      rfl
    · intro hc
      exact encode_board_ext_cell _ b c r f rfl rfl
        (fun _ => rfl) (fun _ => rfl) (fun hcon => absurd hcon hc) (fun _ => rfl) rfl
  | 3 =>
    have hf : b.castleBQ = true := h
    refine ⟨?_, ?_, ?_⟩
    · show encode_board b 16 r f = 1
      rw [encode_board_castleBQ_cell, hf]
      rfl
    · show encode_board { b with castleBQ := false } 16 r f = 0
      rw [encode_board_castleBQ_cell]
      rfl
    · intro hc
      exact encode_board_ext_cell _ b c r f rfl rfl
        (fun _ => rfl) (fun _ => rfl) (fun _ => rfl) (fun hcon => absurd hcon hc) rfl

/-- Witness for C7: removing white kingside castling from `sampleBoard`
zeroes plane 13 and leaves plane 14 untouched. -/
theorem encode_board_castling_frame_witness :
    castleFlag sampleBoard 0 = true ∧
    (encode_board sampleBoard (castleChannel 0) 0 0 = 1 ∧
     encode_board (clearCastle sampleBoard 0) (castleChannel 0) 0 0 = 0 ∧
     ((14 : Fin 18) ≠ castleChannel 0 →
       encode_board (clearCastle sampleBoard 0) 14 0 0
         = encode_board sampleBoard 14 0 0)) :=
  ⟨rfl, encode_board_castling_frame sampleBoard 0 rfl 14 0 0⟩

/-- C9: unconditionally on the (well-formed) board, every element of the
encoding is exactly 0 or exactly 1. The shape 18 x 8 x 8 is the index type
of `Encoding` itself, and all stored values (0.0 and 1.0) are exactly
representable in the float32 dtype the source array uses, so the rational
model is exact. -/
theorem encode_board_binary (b : Board) (c : Fin 18) (r f : Fin 8) :
    encode_board b c r f = 0 ∨ encode_board b c r f = 1 := by
  by_cases h12 : c.val < 12
  · rw [encode_board_piece_cell b c h12 r f]
    cases b.pieceAt (squareAt r f) with
    | none => exact Or.inl rfl
    | some p =>
      dsimp only
      by_cases hc : pieceChannel p = c
      · rw [if_pos hc]; exact Or.inr rfl
      · rw [if_neg hc]; exact Or.inl rfl
  · have hlt := c.isLt
    have hcases : c.val = 12 ∨ c.val = 13 ∨ c.val = 14 ∨ c.val = 15 ∨
        c.val = 16 ∨ c.val = 17 := by omega
    rcases hcases with hv | hv | hv | hv | hv | hv
    · have hc : c = (12 : Fin 18) := Fin.ext (by
        have : ((12 : Fin 18)).val = 12 := rfl
        omega)
      subst hc
      rw [encode_board_turn_cell]
      cases b.turn <;> simp
    · have hc : c = (13 : Fin 18) := Fin.ext (by
        have : ((13 : Fin 18)).val = 13 := rfl
        omega)
      subst hc
      rw [encode_board_castleWK_cell]
      cases b.castleWK <;> simp
    · have hc : c = (14 : Fin 18) := Fin.ext (by
        have : ((14 : Fin 18)).val = 14 := rfl
        omega)
      subst hc
      rw [encode_board_castleWQ_cell]
      cases b.castleWQ <;> simp
    · have hc : c = (15 : Fin 18) := Fin.ext (by
        have : ((15 : Fin 18)).val = 15 := rfl
        omega)
      subst hc
      rw [encode_board_castleBK_cell]
      cases b.castleBK <;> simp
    · have hc : c = (16 : Fin 18) := Fin.ext (by
        have : ((16 : Fin 18)).val = 16 := rfl
        omega)
      subst hc
      rw [encode_board_castleBQ_cell]
      cases b.castleBQ <;> simp
    · have hc : c = (17 : Fin 18) := Fin.ext (by
        have : ((17 : Fin 18)).val = 17 := rfl
        omega)
      subst hc
      rw [encode_board_ep_cell]
      cases b.epSquare with
      | none => exact Or.inl rfl
      | some sq =>
        dsimp only
        by_cases hf : f = squareFile sq
        · rw [if_pos hf]; exact Or.inr rfl
        · rw [if_neg hf]; exact Or.inl rfl

end TermChess